import Mathlib

/-!
Verification of the fixed-capacity FIFO ring buffer of `src/ring.rs`
(`RingBuffer<T, SIZE>` with operations `new`, `push` and `pop`).

The buffer state is embedded as a list of optional slot contents (a
`MaybeUninit<T>` slot holding no initialised value is `none`), together with
the `index` (head) and `usage` (occupancy) counters.  `push` and `pop` are
embedded in their sequential, single-caller semantics: every atomic load
observes the current state, so every compare-and-swap succeeds.  The retry-loop
structure itself is embedded separately (`pushOnce`/`pushLoop`,
`popOnce`/`popLoop`) with an explicit compare-and-swap step, and the sequential
semantics is proved to be the one-iteration run of those loops.

Where the source reads an uninitialised slot (undefined behaviour in Rust,
prevented by the buffer invariant), the embedding returns the optional slot
content; on every state satisfying the invariant this agrees with the source.
-/

namespace Packchain

/-- State of `RingBuffer<T, SIZE>`: the slot array `buf` (`MaybeUninit`
contents as optional values), the head counter `index` and the occupancy
counter `usage`. -/
structure RingBuffer (α : Type) where
  buf : List (Option α)
  index : Nat
  usage : Nat
deriving Repr, DecidableEq

/-- The state produced by a successful construction: `SIZE` uninitialised
slots, `index = 0`, `usage = 0`. -/
def RingBuffer.init (α : Type) (SIZE : Nat) : RingBuffer α :=
  { buf := List.replicate SIZE none, index := 0, usage := 0 }

/-- `RingBuffer::new`: panics exactly when `SIZE == 0` (embedded as
`Except.error` with the panic message), otherwise yields the fresh state. -/
def RingBuffer.new (α : Type) (SIZE : Nat) : Except String (RingBuffer α) :=
  if SIZE = 0 then Except.error "SIZE can not be 0"
  else Except.ok (RingBuffer.init α SIZE)

/-- `RingBuffer::push`, sequential semantics.  Not-full path (`u < SIZE`):
the compare-and-swap on `usage` succeeds, the value is written at slot
`(i + u) % SIZE`, and `None` is returned.  Full path: the compare-and-swap on
`index` succeeds, advancing it to `(i + 1) % SIZE`, and the slot at the old
`index` is swapped with the new value; the previous content is returned. -/
def RingBuffer.push (SIZE : Nat) (rb : RingBuffer α) (value : α) :
    Option α × RingBuffer α :=
  if rb.usage < SIZE then
    (none,
      { rb with
          usage := rb.usage + 1
          buf := rb.buf.set ((rb.index + rb.usage) % SIZE) (some value) })
  else
    (rb.buf.getD rb.index none,
      { rb with
          index := (rb.index + 1) % SIZE
          buf := rb.buf.set rb.index (some value) })

/-- `RingBuffer::pop`, sequential semantics.  With `usage == 0` it returns
`None` at once, leaving the state untouched.  Otherwise the compare-and-swap
on `index` succeeds, `usage` is decremented, and the old `index` slot is
swapped with a zeroed (uninitialised) placeholder, returning its content. -/
def RingBuffer.pop (SIZE : Nat) (rb : RingBuffer α) :
    Option α × RingBuffer α :=
  if rb.usage = 0 then (none, rb)
  else
    (rb.buf.getD rb.index none,
      { buf := rb.buf.set rb.index none,
        index := (rb.index + 1) % SIZE,
        usage := rb.usage - 1 })

/-- `AtomicUsize::compare_exchange`: succeed and store `newv` exactly when the
current value equals the expected one, otherwise fail and leave the current
value. -/
def cas (current expected newv : Nat) : Bool × Nat :=
  if current = expected then (true, newv) else (false, current)

/-- One iteration of the `push` retry loop; `none` means the compare-and-swap
failed and the source executes `continue`. -/
def RingBuffer.pushOnce (SIZE : Nat) (rb : RingBuffer α) (value : α) :
    Option (Option α × RingBuffer α) :=
  if rb.usage < SIZE then
    match cas rb.usage rb.usage (rb.usage + 1) with
    | (true, u2) =>
      some (none,
        { rb with
            usage := u2
            buf := rb.buf.set ((rb.index + rb.usage) % SIZE) (some value) })
    | (false, _) => none
  else
    match cas rb.index rb.index ((rb.index + 1) % SIZE) with
    | (true, i2) =>
      some (rb.buf.getD rb.index none,
        { rb with index := i2, buf := rb.buf.set rb.index (some value) })
    | (false, _) => none

/-- The `push` retry loop with an explicit iteration budget (sequentially the
state is unchanged across a failed attempt, so a retry re-runs the body on the
same state). -/
def RingBuffer.pushLoop (SIZE : Nat) (fuel : Nat) (rb : RingBuffer α)
    (value : α) : Option (Option α × RingBuffer α) :=
  match fuel with
  | 0 => none
  | fuel + 1 =>
    match RingBuffer.pushOnce SIZE rb value with
    | some r => some r
    | none => RingBuffer.pushLoop SIZE fuel rb value

/-- One iteration of the `pop` retry loop; `none` means the compare-and-swap
failed and the source executes `continue`. -/
def RingBuffer.popOnce (SIZE : Nat) (rb : RingBuffer α) :
    Option (Option α × RingBuffer α) :=
  if rb.usage = 0 then some (none, rb)
  else
    match cas rb.index rb.index ((rb.index + 1) % SIZE) with
    | (true, i2) =>
      some (rb.buf.getD rb.index none,
        { buf := rb.buf.set rb.index none, index := i2, usage := rb.usage - 1 })
    | (false, _) => none

/-- The `pop` retry loop with an explicit iteration budget. -/
def RingBuffer.popLoop (SIZE : Nat) (fuel : Nat) (rb : RingBuffer α) :
    Option (Option α × RingBuffer α) :=
  match fuel with
  | 0 => none
  | fuel + 1 =>
    match RingBuffer.popOnce SIZE rb with
    | some r => some r
    | none => RingBuffer.popLoop SIZE fuel rb

/-- Push a list of values one at a time (the single-threaded test pattern). -/
def RingBuffer.pushAll (SIZE : Nat) (rb : RingBuffer α) (vs : List α) :
    RingBuffer α :=
  vs.foldl (fun s v => (RingBuffer.push SIZE s v).2) rb

/-- Pop repeatedly (at most `fuel` times) until the empty signal, collecting
the returned values in order. -/
def RingBuffer.drain (SIZE : Nat) (fuel : Nat) (rb : RingBuffer α) : List α :=
  match fuel with
  | 0 => []
  | fuel + 1 =>
    match RingBuffer.pop SIZE rb with
    | (none, _) => []
    | (some v, rb2) => v :: RingBuffer.drain SIZE fuel rb2

/-- Specification model, from the words of the spec: a bounded FIFO queue as a
list, oldest first.  Insert appends; on a full queue the oldest element is
evicted and returned. -/
def specPush (SIZE : Nat) (q : List α) (v : α) : Option α × List α :=
  if q.length < SIZE then (none, q ++ [v]) else (q.head?, q.tail ++ [v])

/-- Specification model of removal: take the oldest element if any. -/
def specPop (q : List α) : Option α × List α :=
  match q with
  | [] => (none, [])
  | x :: xs => (some x, xs)

/-- Slot `p` lies in the logical run that starts at `i` and has length `u`,
wrapping modulo `SIZE`. -/
def InRun (SIZE i u p : Nat) : Prop :=
  ∃ j, j < u ∧ (i + j) % SIZE = p

instance (SIZE i u p : Nat) : Decidable (InRun SIZE i u p) := by
  unfold InRun; infer_instance

/-- Abstraction relation: the ring state `rb` represents the FIFO queue `q`
(oldest first).  Counters are in range, `usage` is the queue length, the slots
along the run starting at `index` hold the queue elements in order, and every
slot outside the run is uninitialised. -/
def Abs (SIZE : Nat) (rb : RingBuffer α) (q : List α) : Prop :=
  rb.buf.length = SIZE ∧
  rb.index < SIZE ∧
  rb.usage = q.length ∧
  q.length ≤ SIZE ∧
  (∀ j, j < q.length → rb.buf.getD ((rb.index + j) % SIZE) none = q[j]?) ∧
  (∀ p, p < SIZE → ¬ InRun SIZE rb.index rb.usage p → rb.buf.getD p none = none)

instance (SIZE : Nat) [DecidableEq α] (rb : RingBuffer α) (q : List α) :
    Decidable (Abs SIZE rb q) := by
  unfold Abs; infer_instance

/-- States reachable from a freshly constructed buffer (positive capacity) by
any sequence of `push`/`pop` calls. -/
inductive Reachable (α : Type) (SIZE : Nat) : RingBuffer α → Prop where
  | init : 0 < SIZE → Reachable α SIZE (RingBuffer.init α SIZE)
  | push (rb : RingBuffer α) (v : α) : Reachable α SIZE rb →
      Reachable α SIZE (RingBuffer.push SIZE rb v).2
  | pop (rb : RingBuffer α) : Reachable α SIZE rb →
      Reachable α SIZE (RingBuffer.pop SIZE rb).2

/-! Helper lemmas about list indexing and modular arithmetic. -/

lemma getD_set_self (l : List (Option α)) (n : Nat) (h : n < l.length)
    (a : Option α) : (l.set n a).getD n none = a := by
  simp [List.getD, List.getElem?_set_self, h]

lemma getD_set_ne (l : List (Option α)) (m n : Nat) (h : m ≠ n)
    (a : Option α) : (l.set m a).getD n none = l.getD n none := by
  simp [List.getD, List.getElem?_set_ne h]

lemma getD_replicate (n p : Nat) (h : p < n) :
    (List.replicate n (none : Option α)).getD p none = none := by
  simp [List.getD, List.getElem?_replicate, h]

lemma run_inj (SIZE i j k : Nat) (hj : j < SIZE) (hk : k < SIZE)
    (h : (i + j) % SIZE = (i + k) % SIZE) : j = k := by
  have h2 : j ≡ k [MOD SIZE] :=
    Nat.ModEq.add_left_cancel' i (show i + j ≡ i + k [MOD SIZE] from h)
  rwa [Nat.ModEq, Nat.mod_eq_of_lt hj, Nat.mod_eq_of_lt hk] at h2

lemma run_shift (SIZE i j : Nat) :
    ((i + 1) % SIZE + j) % SIZE = (i + (j + 1)) % SIZE := by
  rw [Nat.mod_add_mod]
  congr 1
  omega

lemma run_cover (SIZE i p : Nat) (hi : i ≤ SIZE) (hp : p < SIZE) :
    ∃ j, j < SIZE ∧ (i + j) % SIZE = p := by
  refine ⟨(p + SIZE - i) % SIZE, Nat.mod_lt _ (by omega), ?_⟩
  rw [Nat.add_mod_mod, Nat.add_sub_cancel' (by omega : i ≤ p + SIZE),
    Nat.add_mod_right, Nat.mod_eq_of_lt hp]

lemma drop_append_left (l l2 : List α) (n : Nat) (h : n ≤ l.length) :
    (l ++ l2).drop n = l.drop n ++ l2 := by
  rw [List.drop_append_eq_append_drop, Nat.sub_eq_zero_of_le h, List.drop_zero]

/-! The abstraction relation is established at construction and preserved, in
lock step with the specification queue, by `push` and `pop`. -/

lemma abs_init (α : Type) (SIZE : Nat) (hS : 0 < SIZE) :
    Abs SIZE (RingBuffer.init α SIZE) [] := by
  unfold Abs
  refine ⟨by simp [RingBuffer.init], by simp [RingBuffer.init]; omega,
    by simp [RingBuffer.init], by simp, ?_, ?_⟩
  · intro j hj
    simp at hj
  · intro p hp _
    show (List.replicate SIZE (none : Option α)).getD p none = none
    exact getD_replicate SIZE p hp

lemma abs_push (SIZE : Nat) (rb : RingBuffer α) (q : List α) (hA : Abs SIZE rb q)
    (v : α) :
    (RingBuffer.push SIZE rb v).1 = (specPush SIZE q v).1 ∧
    Abs SIZE (RingBuffer.push SIZE rb v).2 (specPush SIZE q v).2 := by
  obtain ⟨hlen, hidx, husage, hqlen, hrun, hout⟩ := hA
  have hS : 0 < SIZE := by omega
  by_cases hnf : rb.usage < SIZE
  · -- not-full path: reserve the next slot, write the value, return `none`
    have hql : q.length < SIZE := by omega
    simp only [RingBuffer.push, if_pos hnf, specPush, if_pos hql]
    refine ⟨by trivial, ?_⟩
    unfold Abs
    refine ⟨by simp [hlen], hidx, by simp; omega, by simp; omega, ?_, ?_⟩
    · intro j hj
      simp only [List.length_append, List.length_cons, List.length_nil] at hj
      by_cases hjq : j < q.length
      · have hne : (rb.index + rb.usage) % SIZE ≠ (rb.index + j) % SIZE := by
          intro he
          have := run_inj SIZE rb.index rb.usage j hnf (by omega) he
          omega
        show (rb.buf.set ((rb.index + rb.usage) % SIZE) (some v)).getD
            ((rb.index + j) % SIZE) none = (q ++ [v])[j]?
        rw [getD_set_ne _ _ _ hne, hrun j hjq, List.getElem?_append, if_pos hjq]
      · have hje : j = q.length := by omega
        subst hje
        show (rb.buf.set ((rb.index + rb.usage) % SIZE) (some v)).getD
            ((rb.index + q.length) % SIZE) none = (q ++ [v])[q.length]?
        rw [show rb.index + q.length = rb.index + rb.usage from by omega]
        rw [getD_set_self _ _ (by rw [hlen]; exact Nat.mod_lt _ hS) _]
        rw [List.getElem?_append, if_neg (lt_irrefl _)]
        simp
    · intro p hp hnr
      have hnr2 : ¬ InRun SIZE rb.index (rb.usage + 1) p := hnr
      have hpt : (rb.index + rb.usage) % SIZE ≠ p := by
        intro he
        exact hnr2 ⟨rb.usage, by omega, he⟩
      show (rb.buf.set ((rb.index + rb.usage) % SIZE) (some v)).getD p none = none
      rw [getD_set_ne _ _ _ hpt]
      refine hout p hp ?_
      rintro ⟨j, hj, hjp⟩
      exact hnr2 ⟨j, by omega, hjp⟩
  · -- full path: advance the head, swap the value into the evicted slot
    have hus : rb.usage = SIZE := by omega
    have hqs : q.length = SIZE := by omega
    obtain ⟨x, xs, rfl⟩ : ∃ y ys, q = y :: ys := by
      cases q with
      | nil => simp at hqs; omega
      | cons y ys => exact ⟨y, ys, rfl⟩
    have hxs : xs.length + 1 = SIZE := by simpa using hqs
    have h0 : rb.buf.getD rb.index none = some x := by
      have h1 := hrun 0 (by simp)
      rw [Nat.add_zero, Nat.mod_eq_of_lt hidx] at h1
      simpa using h1
    simp only [RingBuffer.push, if_neg hnf, specPush,
      if_neg (by simp; omega : ¬ (x :: xs).length < SIZE)]
    refine ⟨by simpa using h0, ?_⟩
    unfold Abs
    refine ⟨by simp [hlen], Nat.mod_lt _ hS, by simp; omega, by simp; omega,
      ?_, ?_⟩
    · intro j hj
      simp only [List.length_append, List.length_cons, List.length_nil,
        List.tail_cons] at hj ⊢
      show (rb.buf.set rb.index (some v)).getD
          (((rb.index + 1) % SIZE + j) % SIZE) none = (xs ++ [v])[j]?
      rw [run_shift]
      by_cases hjx : j < xs.length
      · have hne : rb.index ≠ (rb.index + (j + 1)) % SIZE := by
          intro he
          have h2 : (rb.index + 0) % SIZE = (rb.index + (j + 1)) % SIZE := by
            rw [Nat.add_zero, Nat.mod_eq_of_lt hidx]
            exact he
          have := run_inj SIZE rb.index 0 (j + 1) hS (by omega) h2
          omega
        rw [getD_set_ne _ _ _ hne]
        have h3 := hrun (j + 1) (by simp; omega)
        rw [h3, List.getElem?_append, if_pos hjx]
        simp
      · have hje : j = xs.length := by omega
        subst hje
        rw [show rb.index + (xs.length + 1) = rb.index + SIZE from by omega,
          Nat.add_mod_right, Nat.mod_eq_of_lt hidx]
        rw [getD_set_self _ _ (by rw [hlen]; exact hidx) _]
        rw [List.getElem?_append, if_neg (lt_irrefl _)]
        simp
    · intro p hp hnr
      have hnr2 : ¬ InRun SIZE ((rb.index + 1) % SIZE) rb.usage p := hnr
      obtain ⟨j, hj, hjp⟩ :=
        run_cover SIZE ((rb.index + 1) % SIZE) p (le_of_lt (Nat.mod_lt _ hS)) hp
      exact absurd ⟨j, by omega, hjp⟩ hnr2

lemma abs_pop (SIZE : Nat) (rb : RingBuffer α) (q : List α)
    (hA : Abs SIZE rb q) :
    (RingBuffer.pop SIZE rb).1 = (specPop q).1 ∧
    Abs SIZE (RingBuffer.pop SIZE rb).2 (specPop q).2 := by
  obtain ⟨hlen, hidx, husage, hqlen, hrun, hout⟩ := hA
  have hS : 0 < SIZE := by omega
  cases q with
  | nil =>
    have hu : rb.usage = 0 := by simpa using husage
    constructor
    · simp [RingBuffer.pop, hu, specPop]
    · have h2 : (RingBuffer.pop SIZE rb).2 = rb := by simp [RingBuffer.pop, hu]
      show Abs SIZE (RingBuffer.pop SIZE rb).2 []
      rw [h2]
      exact ⟨hlen, hidx, husage, hqlen, hrun, hout⟩
  | cons x xs =>
    have hu : rb.usage = xs.length + 1 := by simpa using husage
    have hxs : xs.length + 1 ≤ SIZE := by simpa using hqlen
    have hne0 : ¬ rb.usage = 0 := by omega
    have h0 : rb.buf.getD rb.index none = some x := by
      have h1 := hrun 0 (by simp)
      rw [Nat.add_zero, Nat.mod_eq_of_lt hidx] at h1
      simpa using h1
    constructor
    · simpa [RingBuffer.pop, hne0, specPop] using h0
    · have hstate : (RingBuffer.pop SIZE rb).2 =
          { buf := rb.buf.set rb.index none,
            index := (rb.index + 1) % SIZE,
            usage := rb.usage - 1 } := by
        simp [RingBuffer.pop, hne0]
      show Abs SIZE (RingBuffer.pop SIZE rb).2 xs
      rw [hstate]
      unfold Abs
      refine ⟨by simp [hlen], Nat.mod_lt _ hS, by simp; omega, by omega, ?_, ?_⟩
      · intro j hj
        show (rb.buf.set rb.index none).getD
            (((rb.index + 1) % SIZE + j) % SIZE) none = xs[j]?
        rw [run_shift]
        have hne : rb.index ≠ (rb.index + (j + 1)) % SIZE := by
          intro he
          have h2 : (rb.index + 0) % SIZE = (rb.index + (j + 1)) % SIZE := by
            rw [Nat.add_zero, Nat.mod_eq_of_lt hidx]
            exact he
          have := run_inj SIZE rb.index 0 (j + 1) hS (by omega) h2
          omega
        rw [getD_set_ne _ _ _ hne]
        have h3 := hrun (j + 1) (by simp; omega)
        rw [h3]
        simp
      · intro p hp hnr
        have hnr2 : ¬ InRun SIZE ((rb.index + 1) % SIZE) (rb.usage - 1) p := hnr
        by_cases hpi : p = rb.index
        · subst hpi
          exact getD_set_self _ _ (by rw [hlen]; exact hidx) none
        · rw [getD_set_ne _ _ _ (fun he => hpi he.symm)]
          refine hout p hp ?_
          rintro ⟨j, hj, hjp⟩
          cases j with
          | zero =>
            exact hpi (by rw [← hjp, Nat.add_zero, Nat.mod_eq_of_lt hidx])
          | succ k =>
            refine absurd ?_ hnr2
            refine ⟨k, by omega, ?_⟩
            rw [run_shift]
            exact hjp

lemma reachable_abs (SIZE : Nat) (rb : RingBuffer α)
    (h : Reachable α SIZE rb) : ∃ q, Abs SIZE rb q := by
  induction h with
  | init hS => exact ⟨[], abs_init α SIZE hS⟩
  | push rb v _ ih =>
    obtain ⟨q, hq⟩ := ih
    exact ⟨_, (abs_push SIZE rb q hq v).2⟩
  | pop rb _ ih =>
    obtain ⟨q, hq⟩ := ih
    exact ⟨_, (abs_pop SIZE rb q hq).2⟩

/-! Draining and bulk pushing, related to the specification queue. -/

lemma pop_usage_zero (SIZE : Nat) (rb : RingBuffer α) (hu : rb.usage = 0) :
    RingBuffer.pop SIZE rb = (none, rb) := by
  simp [RingBuffer.pop, hu]

lemma drain_succ (SIZE fuel : Nat) (rb : RingBuffer α) :
    RingBuffer.drain SIZE (fuel + 1) rb =
      match RingBuffer.pop SIZE rb with
      | (none, _) => []
      | (some v, rb2) => v :: RingBuffer.drain SIZE fuel rb2 := rfl

lemma drain_abs (SIZE : Nat) (q : List α) :
    ∀ (fuel : Nat) (rb : RingBuffer α), Abs SIZE rb q → q.length ≤ fuel →
      RingBuffer.drain SIZE fuel rb = q := by
  induction q with
  | nil =>
    intro fuel rb hA _
    have hu : rb.usage = 0 := by simpa using hA.2.2.1
    cases fuel with
    | zero => rfl
    | succ f => rw [drain_succ, pop_usage_zero SIZE rb hu]
  | cons x xs ih =>
    intro fuel rb hA hf
    obtain ⟨h1, h2⟩ := abs_pop SIZE rb (x :: xs) hA
    have h1s : (RingBuffer.pop SIZE rb).1 = some x := h1
    have h2s : Abs SIZE (RingBuffer.pop SIZE rb).2 xs := h2
    cases fuel with
    | zero => simp at hf
    | succ f =>
      have hps : RingBuffer.pop SIZE rb =
          (some x, (RingBuffer.pop SIZE rb).2) := by
        rw [← h1s]
      rw [drain_succ, hps]
      show x :: RingBuffer.drain SIZE f (RingBuffer.pop SIZE rb).2 = x :: xs
      rw [ih f _ h2s (by simp at hf; omega)]

lemma specPush_eq_drop (SIZE : Nat) (q : List α)
    (hq : q.length ≤ SIZE) (hS : 0 < SIZE) (v : α) :
    (specPush SIZE q v).2 = (q ++ [v]).drop (q.length + 1 - SIZE) := by
  unfold specPush
  by_cases h : q.length < SIZE
  · rw [if_pos h, Nat.sub_eq_zero_of_le (by omega), List.drop_zero]
  · rw [if_neg h]
    have hqs : q.length = SIZE := by omega
    cases q with
    | nil => simp at hqs; omega
    | cons x xs =>
      simp only [List.tail_cons]
      rw [show (x :: xs).length + 1 - SIZE = 1 from by simp at hqs ⊢; omega]
      simp

lemma spec_foldl_drop (SIZE : Nat) (hS : 0 < SIZE) (vs : List α) :
    ∀ q : List α, q.length ≤ SIZE →
      vs.foldl (fun s v => (specPush SIZE s v).2) q =
        (q ++ vs).drop (q.length + vs.length - SIZE) := by
  induction vs with
  | nil =>
    intro q hq
    simp [Nat.sub_eq_zero_of_le hq]
  | cons v vs ih =>
    intro q hq
    rw [List.foldl_cons, specPush_eq_drop SIZE q hq hS v]
    have hlen2 : ((q ++ [v]).drop (q.length + 1 - SIZE)).length ≤ SIZE := by
      simp
      omega
    rw [ih _ hlen2]
    rw [← drop_append_left (q ++ [v]) vs _ (by simp)]
    rw [List.drop_drop]
    congr 1
    · simp
      omega
    · simp

lemma abs_pushAll (SIZE : Nat) (vs : List α) :
    ∀ (rb : RingBuffer α) (q : List α), Abs SIZE rb q →
      Abs SIZE (RingBuffer.pushAll SIZE rb vs)
        (vs.foldl (fun s v => (specPush SIZE s v).2) q) := by
  induction vs with
  | nil =>
    intro rb q hA
    exact hA
  | cons v vs ih =>
    intro rb q hA
    exact ih _ _ (abs_push SIZE rb q hA v).2

/-! Loop-body facts for the sequential semantics. -/

lemma pushOnce_eq (SIZE : Nat) (rb : RingBuffer α) (v : α) :
    RingBuffer.pushOnce SIZE rb v = some (RingBuffer.push SIZE rb v) := by
  unfold RingBuffer.pushOnce RingBuffer.push cas
  by_cases h : rb.usage < SIZE
  · simp [h]
  · simp [h]

lemma popOnce_eq (SIZE : Nat) (rb : RingBuffer α) :
    RingBuffer.popOnce SIZE rb = some (RingBuffer.pop SIZE rb) := by
  unfold RingBuffer.popOnce RingBuffer.pop cas
  by_cases h : rb.usage = 0
  · simp [h]
  · simp [h]

/-! Theorems for the claims. -/

/-- Claim C1 (FIFO under sequential use): pushing the values `vs` one at a
time into a freshly constructed buffer of capacity `SIZE ≥ 1` and then popping
until the empty signal yields exactly the last `min vs.length SIZE` pushed
values (all of them if `vs.length ≤ SIZE`) in insertion order, i.e.
`vs.drop (vs.length - SIZE)`; any sufficient pop budget returns that same
list, so the pop after the last value yields the empty signal. -/
theorem fifo_sequential (SIZE : Nat) (hS : 0 < SIZE) (vs : List α)
    (fuel : Nat) (hfuel : min vs.length SIZE ≤ fuel) :
    RingBuffer.drain SIZE fuel
        (RingBuffer.pushAll SIZE (RingBuffer.init α SIZE) vs)
      = vs.drop (vs.length - SIZE) := by
  have hA := abs_pushAll SIZE vs (RingBuffer.init α SIZE) [] (abs_init α SIZE hS)
  rw [spec_foldl_drop SIZE hS vs [] (by simp)] at hA
  simp only [List.nil_append, List.length_nil, Nat.zero_add] at hA
  exact drain_abs SIZE _ fuel _ hA (by simp [List.length_drop]; omega)

/-- Witness for C1, the concrete case of the spec: capacity 4, insert 0..8,
then four removals yield 5, 6, 7, 8 and the fifth yields the empty signal
(the drain with budget 5 stops at exactly these four values). -/
theorem fifo_sequential_witness :
    RingBuffer.drain 4 5
        (RingBuffer.pushAll 4 (RingBuffer.init Nat 4) [0, 1, 2, 3, 4, 5, 6, 7, 8])
      = [5, 6, 7, 8] :=
  (fifo_sequential 4 (by decide) [0, 1, 2, 3, 4, 5, 6, 7, 8] 5
    (by decide)).trans (by decide)

/-- Claim C2 (not-full insert postcondition): with occupancy below capacity,
`push v` returns `None`, writes `v` into slot `(head + occupancy) % SIZE`,
increments the occupancy, and leaves the head and every other slot
unchanged. -/
theorem push_not_full (SIZE : Nat) (rb : RingBuffer α) (v : α)
    (hlen : rb.buf.length = SIZE) (hu : rb.usage < SIZE) :
    (RingBuffer.push SIZE rb v).1 = none ∧
    (RingBuffer.push SIZE rb v).2.index = rb.index ∧
    (RingBuffer.push SIZE rb v).2.usage = rb.usage + 1 ∧
    (RingBuffer.push SIZE rb v).2.buf.getD ((rb.index + rb.usage) % SIZE) none
      = some v ∧
    (∀ p, p ≠ (rb.index + rb.usage) % SIZE →
      (RingBuffer.push SIZE rb v).2.buf.getD p none = rb.buf.getD p none) := by
  have hS : 0 < SIZE := by omega
  simp only [RingBuffer.push, if_pos hu]
  refine ⟨by trivial, by trivial, by trivial, ?_, ?_⟩
  · show (rb.buf.set ((rb.index + rb.usage) % SIZE) (some v)).getD
        ((rb.index + rb.usage) % SIZE) none = some v
    exact getD_set_self _ _ (by rw [hlen]; exact Nat.mod_lt _ hS) _
  · intro p hp
    show (rb.buf.set ((rb.index + rb.usage) % SIZE) (some v)).getD p none
        = rb.buf.getD p none
    exact getD_set_ne _ _ _ (fun h => hp h.symm) _

/-- Witness for C2: capacity 3, one slot occupied at head 0; pushing 9 returns
`none`, keeps the head, bumps the occupancy to 2, writes slot 1 and leaves
slot 0 alone. -/
theorem push_not_full_witness :
    (RingBuffer.push 3 ⟨[some 1, none, none], 0, 1⟩ (9 : Nat)).1 = none ∧
    (RingBuffer.push 3 ⟨[some 1, none, none], 0, 1⟩ (9 : Nat)).2.usage = 2 ∧
    (RingBuffer.push 3 ⟨[some 1, none, none], 0, 1⟩ (9 : Nat)).2.buf.getD 1 none
      = some 9 := by
  have h := push_not_full 3 ⟨[some 1, none, none], 0, 1⟩ (9 : Nat)
    (by decide) (by decide)
  exact ⟨h.1, h.2.2.1, h.2.2.2.1⟩

/-- Claim C3 (full insert postcondition): with occupancy equal to capacity,
`push v` returns `Some` of the oldest stored item (the head of the abstract
queue), advances the head to `(head + 1) % SIZE`, overwrites the old head slot
with `v`, and leaves the occupancy and every other slot unchanged. -/
theorem push_full (SIZE : Nat) (rb : RingBuffer α) (q : List α) (v : α)
    (hA : Abs SIZE rb q) (hfull : rb.usage = SIZE) :
    (RingBuffer.push SIZE rb v).1 = q.head? ∧
    q.head?.isSome = true ∧
    (RingBuffer.push SIZE rb v).2.index = (rb.index + 1) % SIZE ∧
    (RingBuffer.push SIZE rb v).2.usage = rb.usage ∧
    (RingBuffer.push SIZE rb v).2.buf.getD rb.index none = some v ∧
    (∀ p, p ≠ rb.index →
      (RingBuffer.push SIZE rb v).2.buf.getD p none = rb.buf.getD p none) := by
  obtain ⟨hlen, hidx, husage, hqlen, hrun, hout⟩ := hA
  have hS : 0 < SIZE := by omega
  have hnf : ¬ rb.usage < SIZE := by omega
  obtain ⟨x, xs, rfl⟩ : ∃ y ys, q = y :: ys := by
    cases q with
    | nil => simp at husage; omega
    | cons y ys => exact ⟨y, ys, rfl⟩
  have h0 : rb.buf.getD rb.index none = some x := by
    have h1 := hrun 0 (by simp)
    rw [Nat.add_zero, Nat.mod_eq_of_lt hidx] at h1
    simpa using h1
  simp only [RingBuffer.push, if_neg hnf]
  refine ⟨?_, by simp, by trivial, by trivial, ?_, ?_⟩
  · show rb.buf.getD rb.index none = (x :: xs).head?
    rw [h0]
    rfl
  · show (rb.buf.set rb.index (some v)).getD rb.index none = some v
    exact getD_set_self _ _ (by rw [hlen]; exact hidx) _
  · intro p hp
    show (rb.buf.set rb.index (some v)).getD p none = rb.buf.getD p none
    exact getD_set_ne _ _ _ (fun h => hp h.symm) _

/-- Witness for C3: capacity 2, full buffer representing the queue `[20, 10]`
(head at slot 1); pushing 99 returns the oldest value 20, moves the head to
slot 0, and writes 99 into slot 1. -/
theorem push_full_witness :
    (RingBuffer.push 2 ⟨[some 10, some 20], 1, 2⟩ (99 : Nat)).1 = some 20 ∧
    (RingBuffer.push 2 ⟨[some 10, some 20], 1, 2⟩ (99 : Nat)).2.index = 0 ∧
    (RingBuffer.push 2 ⟨[some 10, some 20], 1, 2⟩ (99 : Nat)).2.buf.getD 1 none
      = some 99 := by
  have h := push_full 2 ⟨[some 10, some 20], 1, 2⟩ [20, 10] (99 : Nat)
    (by decide) (by decide)
  exact ⟨h.1, h.2.2.1, h.2.2.2.2.1⟩

/-- Claim C4 (eviction return value): on any full state, the value returned by
`push` equals the value that `pop` would return on that same state. -/
theorem push_full_eq_pop (SIZE : Nat) (rb : RingBuffer α) (v : α)
    (hS : 0 < SIZE) (hfull : rb.usage = SIZE) :
    (RingBuffer.push SIZE rb v).1 = (RingBuffer.pop SIZE rb).1 := by
  have h1 : ¬ rb.usage < SIZE := by omega
  have h2 : ¬ rb.usage = 0 := by omega
  simp only [RingBuffer.push, if_neg h1, RingBuffer.pop, if_neg h2]

/-- Witness for C4: a full capacity-1 buffer; insert and removal would both
yield the stored value 5. -/
theorem push_full_eq_pop_witness :
    (RingBuffer.push 1 ⟨[some 5], 0, 1⟩ (9 : Nat)).1
      = (RingBuffer.pop 1 ⟨[some 5], 0, 1⟩).1 ∧
    (RingBuffer.pop 1 (⟨[some 5], 0, 1⟩ : RingBuffer Nat)).1 = some 5 :=
  ⟨push_full_eq_pop 1 ⟨[some 5], 0, 1⟩ (9 : Nat) (by decide) (by decide),
    by decide⟩

/-- Claim C5 (invariant I1): in every state reachable from a freshly
constructed buffer by pushes and pops, `0 ≤ occupancy ≤ SIZE`. -/
theorem reachable_occupancy (SIZE : Nat) (rb : RingBuffer α)
    (h : Reachable α SIZE rb) : 0 ≤ rb.usage ∧ rb.usage ≤ SIZE := by
  obtain ⟨q, hq⟩ := reachable_abs SIZE rb h
  obtain ⟨-, -, husage, hqlen, -, -⟩ := hq
  exact ⟨Nat.zero_le _, by omega⟩

/-- Witness for C5 at a concrete reachable state: one push into a fresh
capacity-2 buffer. -/
theorem reachable_occupancy_witness :
    0 ≤ (RingBuffer.push 2 (RingBuffer.init Nat 2) 7).2.usage ∧
    (RingBuffer.push 2 (RingBuffer.init Nat 2) 7).2.usage ≤ 2 :=
  reachable_occupancy 2 _ (Reachable.push _ 7 (Reachable.init (by decide)))

/-- Claim C6 (invariant I2): in every reachable state the head index lies in
`[0, SIZE)`, the slot array has length `SIZE`, and a slot is occupied exactly
when it lies in the contiguous logical run of length `occupancy` starting at
the head and wrapping modulo the capacity — so every cell outside that run is
empty. -/
theorem reachable_run (SIZE : Nat) (rb : RingBuffer α)
    (h : Reachable α SIZE rb) :
    rb.index < SIZE ∧ rb.buf.length = SIZE ∧
    ∀ p, p < SIZE →
      ((rb.buf.getD p none).isSome = true ↔ InRun SIZE rb.index rb.usage p) := by
  obtain ⟨q, hq⟩ := reachable_abs SIZE rb h
  obtain ⟨hlen, hidx, husage, hqlen, hrun, hout⟩ := hq
  refine ⟨hidx, hlen, fun p hp => ⟨?_, ?_⟩⟩
  · intro hsome
    by_contra hnr
    rw [hout p hp hnr] at hsome
    simp at hsome
  · rintro ⟨j, hj, rfl⟩
    have hjq : j < q.length := by omega
    rw [hrun j hjq, List.getElem?_eq_getElem hjq]
    simp

/-- Witness for C6 at a concrete reachable state: one push into a fresh
capacity-2 buffer; slot 0 is the single-element run, slot 1 is empty. -/
theorem reachable_run_witness :
    (RingBuffer.push 2 (RingBuffer.init Nat 2) 7).2.index < 2 ∧
    (RingBuffer.push 2 (RingBuffer.init Nat 2) 7).2.buf.length = 2 ∧
    (((RingBuffer.push 2 (RingBuffer.init Nat 2) 7).2.buf.getD 0 none).isSome
        = true ↔
      InRun 2 (RingBuffer.push 2 (RingBuffer.init Nat 2) 7).2.index
        (RingBuffer.push 2 (RingBuffer.init Nat 2) 7).2.usage 0) := by
  have h := reachable_run 2 _
    (Reachable.push (RingBuffer.init Nat 2) 7 (Reachable.init (by decide)))
  exact ⟨h.1, h.2.1, h.2.2 0 (by decide)⟩

/-- Claim C7 (empty removal and idempotence): with occupancy 0, `pop` returns
the empty signal and the state — head, occupancy and all slot contents — is
returned unchanged; popping again still returns the empty signal with the
unchanged state. -/
theorem pop_empty (SIZE : Nat) (rb : RingBuffer α) (hu : rb.usage = 0) :
    RingBuffer.pop SIZE rb = (none, rb) ∧
    RingBuffer.pop SIZE (RingBuffer.pop SIZE rb).2 = (none, rb) := by
  have h := pop_usage_zero SIZE rb hu
  refine ⟨h, ?_⟩
  rw [h]
  exact pop_usage_zero SIZE rb hu

/-- Witness for C7: a freshly constructed capacity-3 buffer; the first and the
repeated removal both yield the empty signal with the state unchanged. -/
theorem pop_empty_witness :
    RingBuffer.pop 3 (RingBuffer.init Nat 3) = (none, RingBuffer.init Nat 3) ∧
    RingBuffer.pop 3 (RingBuffer.pop 3 (RingBuffer.init Nat 3)).2
      = (none, RingBuffer.init Nat 3) :=
  pop_empty 3 (RingBuffer.init Nat 3) rfl

/-- Claim C8 (construction): `new` fails exactly for capacity 0 (and for every
positive capacity succeeds with head 0, occupancy 0 and all slots empty); a
capacity-1 buffer is a single-slot overwrite buffer: pushing into the full
buffer holding `w` returns `w` and the buffer then represents exactly the new
value. -/
theorem new_construction (α : Type) (SIZE : Nat) :
    (SIZE = 0 → RingBuffer.new α SIZE = Except.error "SIZE can not be 0") ∧
    (0 < SIZE → RingBuffer.new α SIZE = Except.ok (RingBuffer.init α SIZE) ∧
      (RingBuffer.init α SIZE).index = 0 ∧
      (RingBuffer.init α SIZE).usage = 0 ∧
      ∀ p, p < SIZE → (RingBuffer.init α SIZE).buf.getD p none = none) ∧
    (∀ (rb : RingBuffer α) (w v : α), Abs 1 rb [w] →
      (RingBuffer.push 1 rb v).1 = some w ∧
      Abs 1 (RingBuffer.push 1 rb v).2 [v]) := by
  refine ⟨?_, ?_, ?_⟩
  · intro h
    simp [RingBuffer.new, h]
  · intro hS
    refine ⟨?_, rfl, rfl, ?_⟩
    · unfold RingBuffer.new
      rw [if_neg (by omega : ¬ SIZE = 0)]
    · intro p hp
      exact getD_replicate SIZE p hp
  · intro rb w v hA
    have h := abs_push 1 rb [w] hA v
    constructor
    · have h1 : (RingBuffer.push 1 rb v).1 = (specPush 1 [w] v).1 := h.1
      rw [h1]
      simp [specPush]
    · have h2 := h.2
      have he : (specPush 1 [w] v).2 = [v] := by simp [specPush]
      rw [he] at h2
      exact h2

/-- Witness for C8: capacity 0 is rejected, capacity 2 succeeds with the fresh
state, and a full capacity-1 buffer holding 5 returns 5 when 9 is pushed. -/
theorem new_construction_witness :
    RingBuffer.new Nat 0 = Except.error "SIZE can not be 0" ∧
    RingBuffer.new Nat 2 = Except.ok (RingBuffer.init Nat 2) ∧
    (RingBuffer.push 1 (⟨[some 5], 0, 1⟩ : RingBuffer Nat) 9).1 = some 5 :=
  ⟨(new_construction Nat 0).1 rfl,
    ((new_construction Nat 2).2.1 (by decide)).1,
    ((new_construction Nat 1).2.2 ⟨[some 5], 0, 1⟩ 5 9 (by decide)).1⟩

/-- Claim C10 (sequential totality, implicit): in the single-caller embedding
every compare-and-swap compares the current counter with the value just
loaded, hence succeeds on the first attempt; one iteration of the retry loop
of `push` resp. `pop` already returns, and its result is the sequential
`push`/`pop` result, so both operations are total. -/
theorem sequential_totality (SIZE : Nat) (rb : RingBuffer α) (v : α) :
    RingBuffer.pushLoop SIZE 1 rb v = some (RingBuffer.push SIZE rb v) ∧
    RingBuffer.popLoop SIZE 1 rb = some (RingBuffer.pop SIZE rb) := by
  constructor
  · have h : RingBuffer.pushLoop SIZE 1 rb v =
        match RingBuffer.pushOnce SIZE rb v with
        | some r => some r
        | none => RingBuffer.pushLoop SIZE 0 rb v := rfl
    rw [h, pushOnce_eq]
  · have h : RingBuffer.popLoop SIZE 1 rb =
        match RingBuffer.popOnce SIZE rb with
        | some r => some r
        | none => RingBuffer.popLoop SIZE 0 rb := rfl
    rw [h, popOnce_eq]

end Packchain
